import Mathlib

/-!
Shallow embedding of `src/eng_to_ru/eng_to_ru.py` (class `Translator`).

Python strings are modelled as lists of characters (`Str`).  The external
Translate capability (`GoogleTranslator.translate_batch`) is modelled as an
oracle `Tr` indexed by the number of prior invocations; a `none` result models
a raised exception (the code catches every `Exception`).  The observable side
effects of a run (capability invocations, `time.sleep(10)` waits, progress log
lines) are recorded in an explicit event trace inside the threaded state
`TState`, since the Python code performs them through `logging`/`time`.
The translator's configuration fields `self._batch_size` (default 5) and
`self._max_retries` (default 2) become explicit parameters `batchSize` and
`maxRetries`; `self._log_prefix` and the `description` argument of `run` only
affect log text, never control flow, and are omitted.
-/

namespace EngToRu

/-- A Python string, modelled as its sequence of characters. -/
abbrev Str := List Char

/-- The external Translate capability: given the number of prior invocations
and a batch of chunk strings, return the translated list or fail
(`none` models a raised exception). -/
abbrev Tr := Nat → List Str → Option (List Str)

/-- Helper for `splitOn`: accumulates the current piece in reverse. -/
def splitOnAux (sep : Char) : Str → Str → List Str
  | [], acc => [acc.reverse]
  | c :: cs, acc =>
    if c = sep then acc.reverse :: splitOnAux sep cs []
    else splitOnAux sep cs (c :: acc)

/-- Python `text.split(sep)` for a one-character separator: splits at every
occurrence of `sep`; the empty string yields `[""]`. -/
def splitOn (sep : Char) (s : Str) : List Str := splitOnAux sep s []

/-- Python `"\n".join(pieces)`: the pieces joined with a single newline
between consecutive pieces. -/
def joinNL : List Str → Str
  | [] => []
  | [s] => s
  | s :: ss => s ++ '\n' :: joinNL ss

/-- Whitespace as matched by the regex class `\s`, restricted to its ASCII
part (space, tab, newline, vertical tab, form feed, carriage return); the
additional Unicode whitespace code points accepted by Python's `re` are not
modelled. -/
def isPySpace (c : Char) : Bool :=
  c == ' ' || c == '\t' || c == '\n' || c == '\x0b' || c == '\x0c' || c == '\r'

/-- The character class of the regex in `is_digits_and_punctuation`:
`[0-9.,;:!?\-()\[\]{}'"\s]`.  The brace, apostrophe and double-quote
characters are written via `Char.ofNat` (123, 125, 39, 34). -/
def inCharClass (c : Char) : Bool :=
  c.isDigit || c == '.' || c == ',' || c == ';' || c == ':' ||
  c == '!' || c == '?' || c == '-' || c == '(' || c == ')' ||
  c == '[' || c == ']' || c == Char.ofNat 123 || c == Char.ofNat 125 ||
  c == Char.ofNat 39 || c == Char.ofNat 34 || isPySpace c

/-- `Translator.is_digits_and_punctuation`: `re.fullmatch` of
`^[0-9.,;:!?\-()\[\]{}'"\s]+$`, i.e. the text is nonempty and every
character lies in the class. -/
def is_digits_and_punctuation (text : Str) : Bool :=
  !text.isEmpty && text.all inCharClass

/-- The loop of `Translator._prepare` over `text.split("\n")`, carrying the
buffer `tmp`.  Before appending a paragraph, if
`len(paragraph) + len(tmp) + 2 >= 5000` the buffer is flushed as a chunk with
its final character stripped (`tmp[:-1]`); at the end the buffer is flushed
the same way. -/
def prepareLoop : List Str → Str → List Str
  | [], tmp => [tmp.dropLast]
  | p :: ps, tmp =>
    if 5000 ≤ p.length + tmp.length + 2 then
      tmp.dropLast :: prepareLoop ps (p ++ ['\n'])
    else
      prepareLoop ps (tmp ++ p ++ ['\n'])

/-- `Translator._prepare`: split the text into chunks of (intended) at most
5000 characters, at paragraph boundaries. -/
def _prepare (text : Str) : List Str := prepareLoop (splitOn '\n' text) []

/-- The loop of `Translator._get_batches`: `i` is the `enumerate` index,
`batch` the accumulator; the batch is flushed whenever
`(i + 1) % batch_size == 0`, and a nonempty leftover is flushed at the end. -/
def getBatchesLoop (batchSize : Nat) : List Str → Nat → List Str → List (List Str)
  | [], _, batch => if batch.isEmpty then [] else [batch]
  | t :: ts, i, batch =>
    if (i + 1) % batchSize == 0 then
      (batch ++ [t]) :: getBatchesLoop batchSize ts (i + 1) []
    else
      getBatchesLoop batchSize ts (i + 1) (batch ++ [t])

/-- `Translator._get_batches`. -/
def _get_batches (batchSize : Nat) (data : List Str) : List (List Str) :=
  getBatchesLoop batchSize data 0 []

/-- Observable side effects of `_translate`: an invocation of the Translate
capability on a batch, a `time.sleep` wait, and a logged progress
percentage. -/
inductive Ev where
  | call (batch : List Str)
  | sleep (seconds : Nat)
  | progress (percent : Nat)
  deriving DecidableEq, Repr

/-- The mutable state of `_translate`: the accumulator `answer`, the counter
`len_of_translated_text` (`lenTr`), the event trace, and the number of
capability invocations so far (used to index the oracle). -/
structure TState where
  answer : Str
  lenTr : Nat
  trace : List Ev
  ncalls : Nat
  deriving DecidableEq, Repr

/-- The state at the start of `_translate`. -/
def initState : TState := ⟨[], 0, [], 0⟩

/-- Sum of the lengths of the strings in a list (`sum(blocks_sizes)`). -/
def sumLens (l : List Str) : Nat := (l.map List.length).sum

/-- The retry loop (`while retries < self._max_retries and not success`) of
`_translate` for one batch.  `fuel = max_retries - retries` attempts remain;
with `fuel = 0` the loop body never runs and the batch is skipped.  On a
successful capability call the translated strings are joined with `"\n"` and
appended to `answer`, `len_of_translated_text` is increased by
`sum(blocks_sizes) + len("\n") * (len(batch) - 1)` (Python's `-1` on an empty
batch cannot occur, `_get_batches` never yields one), and the progress
percentage `int(len_of_translated_text / len_of_text * 100)` is logged —
modelled as `lenTr * 100 / lenText` in `Nat` (transcribing the float
computation as exact integer division).  When `lenText = 0` that division
raises `ZeroDivisionError` inside the `try`, which the bare `except` treats
like a failed attempt: `retries += 1`, then either `time.sleep(10)` and retry
or `return None`.  The returned `Bool` is `false` exactly when `return None`
was executed. -/
def runBatch (tr : Tr) (lenText : Nat) (batch : List Str) : Nat → TState → TState × Bool
  | 0, st => (st, true)
  | fuel + 1, st =>
    match tr st.ncalls batch with
    | some res =>
      let st1 : TState :=
        { answer := st.answer ++ joinNL res
          lenTr := st.lenTr + sumLens batch + (batch.length - 1)
          trace := st.trace ++ [Ev.call batch]
          ncalls := st.ncalls + 1 }
      if lenText = 0 then
        if fuel = 0 then (st1, false)
        else runBatch tr lenText batch fuel { st1 with trace := st1.trace ++ [Ev.sleep 10] }
      else
        ({ st1 with trace := st1.trace ++ [Ev.progress (st1.lenTr * 100 / lenText)] }, true)
    | none =>
      let st1 : TState := { st with trace := st.trace ++ [Ev.call batch], ncalls := st.ncalls + 1 }
      if fuel = 0 then (st1, false)
      else runBatch tr lenText batch fuel { st1 with trace := st1.trace ++ [Ev.sleep 10] }

/-- The `for batch in batches_iterator` loop of `_translate`: run the retry
loop on each batch in order; if a batch exhausts its attempts the whole run
stops at once with result `None`, otherwise the accumulated `answer` is
returned. -/
def translateLoop (tr : Tr) (maxRetries lenText : Nat) : List (List Str) → TState → Option Str × TState
  | [], st => (some st.answer, st)
  | b :: rest, st =>
    let r := runBatch tr lenText b maxRetries st
    if r.2 then translateLoop tr maxRetries lenText rest r.1
    else (none, r.1)

/-- `Translator._translate`: chunk the text, group the chunks into batches,
and run the retry/translate loop, starting from the empty state. -/
def _translate (tr : Tr) (maxRetries batchSize : Nat) (text : Str) : Option Str × TState :=
  translateLoop tr maxRetries text.length (_get_batches batchSize (_prepare text)) initState

/-- `Translator.run`: if the text is only digits/punctuation/whitespace,
return it unchanged (no capability call, empty trace); otherwise delegate to
`_translate`.  The second component is the observable effect trace. -/
def run (tr : Tr) (maxRetries batchSize : Nat) (text : Str) : Option Str × TState :=
  if is_digits_and_punctuation text then (some text, initState)
  else _translate tr maxRetries batchSize text

/-! Spec-side definitions, written from the claims' words (never from the
code), for the claims that compare the code against an extensionally given
object. -/

/-- From the words of claim C3: the character set
`. , ; : ! ? - ( ) [ ] { } ' " ` (backtick included)` plus digits and
whitespace.  The backtick is `Char.ofNat 96`. -/
def claimCharSet (c : Char) : Bool :=
  c.isDigit ||
  [ '.', ',', ';', ':', '!', '?', '-', '(', ')', '[', ']',
    Char.ofNat 123, Char.ofNat 125, Char.ofNat 39, Char.ofNat 34,
    Char.ofNat 96].contains c ||
  isPySpace c

/-- The character set of claim C3 with the backtick removed (the amended
claim). -/
def claimCharSetNB (c : Char) : Bool :=
  c.isDigit ||
  [ '.', ',', ';', ':', '!', '?', '-', '(', ')', '[', ']',
    Char.ofNat 123, Char.ofNat 125, Char.ofNat 39, Char.ofNat 34].contains c ||
  isPySpace c

/-- From the words of claim C4: `n` capability invocations on batch `b` with
a 10-unit wait between consecutive attempts and none after the last. -/
def attemptTrace (b : List Str) : Nat → List Ev
  | 0 => []
  | 1 => [Ev.call b]
  | n + 2 => Ev.call b :: Ev.sleep 10 :: attemptTrace b (n + 1)

/-- A Translate capability that always succeeds and returns each submitted
batch translated element-wise in place by `f` (same length, same order). -/
def pureTr (f : Str → Str) : Tr := fun _ b => some (b.map f)

/-- The per-batch joins concatenated across batches with no separator
between batches: what a successful `_translate` accumulates in `answer`. -/
def batchJoins (f : Str → Str) (batches : List (List Str)) : Str :=
  (batches.map (fun b => joinNL (b.map f))).flatten

/-- `r` is a contiguous run inside the list `l` (claim C6's "chunk boundary
only between paragraphs": every chunk is a join of a contiguous run of whole
input paragraphs). -/
def contiguousIn (r l : List Str) : Prop := ∃ u v, l = u ++ r ++ v

/-- The buffer `tmp` of `prepareLoop` always is a list of paragraphs each
followed by one newline. -/
def paraCat (l : List Str) : Str := (l.map (fun p => p ++ ['\n'])).flatten

/-- Joining a paragraph list as `joinNL (p :: ps) = p ++ sepJoin ps`. -/
def sepJoin : List Str → Str
  | [] => []
  | p :: ps => '\n' :: (p ++ sepJoin ps)

/-! Basic lemmas about `splitOn` and `joinNL`. -/

theorem splitOnAux_ne_nil (sep : Char) : ∀ (l acc : Str), splitOnAux sep l acc ≠ []
  | [], _ => by simp [splitOnAux]
  | c :: cs, acc => by
    rw [splitOnAux]
    split
    · simp
    · exact splitOnAux_ne_nil sep cs (c :: acc)

theorem splitOn_ne_nil (sep : Char) (s : Str) : splitOn sep s ≠ [] :=
  splitOnAux_ne_nil sep s []

theorem joinNL_cons_cons (a b : Str) (l : List Str) :
    joinNL (a :: b :: l) = a ++ '\n' :: joinNL (b :: l) := rfl

theorem joinNL_splitOnAux : ∀ (l acc : Str),
    joinNL (splitOnAux '\n' l acc) = acc.reverse ++ l
  | [], acc => by simp [splitOnAux, joinNL]
  | c :: cs, acc => by
    rw [splitOnAux]
    split
    · obtain ⟨b, t, hbt⟩ := List.exists_cons_of_ne_nil (splitOnAux_ne_nil '\n' cs [])
      rw [hbt, joinNL_cons_cons, ← hbt, joinNL_splitOnAux cs []]
      simp_all
    · rw [joinNL_splitOnAux cs (c :: acc)]
      simp

/-- Python `"\n".join(text.split("\n")) == text`. -/
theorem joinNL_splitOn (s : Str) : joinNL (splitOn '\n' s) = s := by
  simpa using joinNL_splitOnAux s []

theorem splitOnAux_no_sep (sep : Char) : ∀ (l acc : Str), (∀ c ∈ l, c ≠ sep) →
    splitOnAux sep l acc = [acc.reverse ++ l]
  | [], acc, _ => by simp [splitOnAux]
  | c :: cs, acc, h => by
    rw [splitOnAux, if_neg (h c (by simp)),
      splitOnAux_no_sep sep cs (c :: acc) (fun x hx => h x (by simp [hx]))]
    simp

/-- A string without separators splits into the single piece itself. -/
theorem splitOn_no_sep (sep : Char) (l : Str) (h : ∀ c ∈ l, c ≠ sep) :
    splitOn sep l = [l] := by
  simpa using splitOnAux_no_sep sep l [] h

theorem joinNL_eq_sepJoin : ∀ (p : Str) (ps : List Str),
    joinNL (p :: ps) = p ++ sepJoin ps
  | _, [] => by simp [joinNL, sepJoin]
  | p, q :: ps => by
    rw [joinNL_cons_cons, joinNL_eq_sepJoin q ps, sepJoin]

/-! Lemmas about `_prepare`. -/

theorem prepareLoop_ne_nil : ∀ (ps : List Str) (tmp : Str), prepareLoop ps tmp ≠ []
  | [], _ => by simp [prepareLoop]
  | p :: ps, tmp => by
    rw [prepareLoop]
    split
    · simp
    · exact prepareLoop_ne_nil ps _

theorem _prepare_ne_nil (text : Str) : _prepare text ≠ [] :=
  prepareLoop_ne_nil _ _

theorem joinNL_prepareLoop : ∀ (ps : List Str) (t : Str),
    joinNL (prepareLoop ps (t ++ ['\n'])) = t ++ sepJoin ps
  | [], t => by simp [prepareLoop, joinNL, sepJoin]
  | p :: ps, t => by
    rw [prepareLoop]
    split
    · obtain ⟨b, tl, hbt⟩ := List.exists_cons_of_ne_nil (prepareLoop_ne_nil ps (p ++ ['\n']))
      rw [hbt, List.dropLast_concat, joinNL_cons_cons, ← hbt,
        joinNL_prepareLoop ps p, sepJoin]
    · have : t ++ ['\n'] ++ p ++ ['\n'] = (t ++ '\n' :: p) ++ ['\n'] := by simp
      rw [this, joinNL_prepareLoop ps (t ++ '\n' :: p), sepJoin]
      simp

/-- Splitter round trip, valid whenever the first paragraph does not trigger
a flush of the still-empty buffer (first paragraph shorter than 4998). -/
theorem prepare_roundtrip (text : Str)
    (h : (splitOn '\n' text).headI.length + 2 < 5000) :
    joinNL (_prepare text) = text := by
  obtain ⟨p, ps, hsp⟩ := List.exists_cons_of_ne_nil (splitOn_ne_nil '\n' text)
  have hp : p.length + 2 < 5000 := by
    have := h
    rw [hsp] at this
    simpa using this
  rw [_prepare, hsp, prepareLoop, if_neg (by simp; omega)]
  have : ([] : Str) ++ p ++ ['\n'] = p ++ ['\n'] := by simp
  rw [this, joinNL_prepareLoop ps p, ← joinNL_eq_sepJoin, ← hsp, joinNL_splitOn]

/-! The chunk-shape invariant of `_prepare` (used for claim C6). -/

theorem paraCat_nil : paraCat [] = [] := rfl

theorem paraCat_singleton (p : Str) : paraCat [p] = p ++ ['\n'] := by
  simp [paraCat]

theorem paraCat_append_singleton (l : List Str) (p : Str) :
    paraCat (l ++ [p]) = paraCat l ++ p ++ ['\n'] := by
  simp [paraCat]

theorem dropLast_paraCat : ∀ l : List Str, (paraCat l).dropLast = joinNL l
  | [] => rfl
  | [p] => by
    simp [paraCat, joinNL]
  | p :: q :: ps => by
    have hne : paraCat (q :: ps) ≠ [] := by simp [paraCat]
    have : paraCat (p :: q :: ps) = (p ++ ['\n']) ++ paraCat (q :: ps) := by
      simp [paraCat]
    rw [this, List.dropLast_append_of_ne_nil _ hne, dropLast_paraCat (q :: ps),
      joinNL_cons_cons]
    simp

theorem length_paraCat : ∀ l : List Str, (paraCat l).length = sumLens l + l.length
  | [] => rfl
  | p :: ps => by
    have : paraCat (p :: ps) = (p ++ ['\n']) ++ paraCat ps := by simp [paraCat]
    rw [this]
    simp [length_paraCat ps, sumLens]
    omega

theorem contiguousIn_append_left (l v : List Str) : contiguousIn l (l ++ v) :=
  ⟨[], v, by simp⟩

theorem contiguousIn_extend (r l m : List Str) (h : contiguousIn r m) :
    contiguousIn r (l ++ m) := by
  obtain ⟨u, v, huv⟩ := h
  exact ⟨l ++ u, v, by simp [huv]⟩

/-- Invariant of the `_prepare` loop: starting from a buffer holding the run
`l` of already-accumulated paragraphs, every produced chunk is either at most
5000 characters long or is a single whole paragraph, and is always the
newline-join of a contiguous run of the remaining paragraphs. -/
theorem prepareLoop_chunks : ∀ (ps l : List Str) (chunk : Str),
    ((paraCat l).length ≤ 4998 ∨ ∃ p, l = [p]) →
    chunk ∈ prepareLoop ps (paraCat l) →
    (chunk.length ≤ 5000 ∨ chunk ∈ l ++ ps) ∧
      ∃ r, contiguousIn r (l ++ ps) ∧ chunk = joinNL r
  | [], l, chunk, hinv, hmem => by
    rw [prepareLoop, List.mem_singleton] at hmem
    subst hmem
    rw [dropLast_paraCat]
    refine ⟨?_, l, by simpa using contiguousIn_append_left l [], rfl⟩
    rcases hinv with hlen | ⟨p, rfl⟩
    · left
      have h1 : (joinNL l).length = (paraCat l).dropLast.length := by
        rw [dropLast_paraCat]
      have h2 : (paraCat l).dropLast.length ≤ (paraCat l).length := by
        simp [List.length_dropLast]
      omega
    · right
      simp [joinNL]
  | p :: ps, l, chunk, hinv, hmem => by
    rw [prepareLoop] at hmem
    split at hmem
    · rcases List.mem_cons.mp hmem with rfl | hmem'
      · rw [dropLast_paraCat]
        refine ⟨?_, l, ⟨[], p :: ps, by simp⟩, rfl⟩
        rcases hinv with hlen | ⟨q, rfl⟩
        · left
          have h2 : (paraCat l).dropLast.length ≤ (paraCat l).length := by
            simp [List.length_dropLast]
          rw [← dropLast_paraCat] at *
          omega
        · right
          simp [joinNL]
      · rw [← paraCat_singleton] at hmem'
        obtain ⟨hsize, r, hcont, hjoin⟩ :=
          prepareLoop_chunks ps [p] chunk (Or.inr ⟨p, rfl⟩) hmem'
        refine ⟨?_, r, ?_, hjoin⟩
        · rcases hsize with h | h
          · exact Or.inl h
          · rw [List.singleton_append] at h
            exact Or.inr (List.mem_append_right l h)
        · exact contiguousIn_extend r l (p :: ps) (by simpa using hcont)
    · rename_i hflush
      have heq : paraCat l ++ p ++ ['\n'] = paraCat (l ++ [p]) := by
        rw [paraCat_append_singleton]
      rw [heq] at hmem
      have hinv' : (paraCat (l ++ [p])).length ≤ 4998 ∨ ∃ q, l ++ [p] = [q] := by
        left
        rw [length_paraCat] at *
        simp [sumLens] at *
        omega
      obtain ⟨hsize, r, hcont, hjoin⟩ :=
        prepareLoop_chunks ps (l ++ [p]) chunk hinv' hmem
      rw [List.append_assoc, List.singleton_append] at hsize hcont
      exact ⟨hsize, r, hcont, hjoin⟩

/-! Lemmas about `_get_batches`. -/

theorem getBatchesLoop_flatten (bs : Nat) : ∀ (ts : List Str) (i : Nat) (batch : List Str),
    (getBatchesLoop bs ts i batch).flatten = batch ++ ts
  | [], i, batch => by
    rw [getBatchesLoop]
    split
    · simp_all [List.isEmpty_iff]
    · simp
  | t :: ts, i, batch => by
    rw [getBatchesLoop]
    split
    · simp [getBatchesLoop_flatten bs ts (i + 1) []]
    · simp [getBatchesLoop_flatten bs ts (i + 1) (batch ++ [t])]

theorem getBatchesLoop_mem_ne_nil (bs : Nat) : ∀ (ts : List Str) (i : Nat)
    (batch : List Str) (b : List Str), b ∈ getBatchesLoop bs ts i batch → b ≠ []
  | [], i, batch, b, hmem => by
    rw [getBatchesLoop] at hmem
    split at hmem
    · simp at hmem
    · rename_i hne
      rw [List.mem_singleton] at hmem
      subst hmem
      simpa [List.isEmpty_iff] using hne
  | t :: ts, i, batch, b, hmem => by
    rw [getBatchesLoop] at hmem
    split at hmem
    · rcases List.mem_cons.mp hmem with rfl | hmem'
      · simp
      · exact getBatchesLoop_mem_ne_nil bs ts (i + 1) [] b hmem'
    · exact getBatchesLoop_mem_ne_nil bs ts (i + 1) (batch ++ [t]) b hmem

theorem getBatchesLoop_ne_nil (bs : Nat) : ∀ (ts : List Str) (i : Nat)
    (batch : List Str), ¬ts = [] ∨ ¬batch = [] → getBatchesLoop bs ts i batch ≠ []
  | [], i, batch, h => by
    rcases h with h | h
    · simp at h
    · rw [getBatchesLoop]
      split
      · simp_all [List.isEmpty_iff]
      · simp
  | t :: ts, i, batch, _ => by
    rw [getBatchesLoop]
    split
    · simp
    · exact getBatchesLoop_ne_nil bs ts (i + 1) (batch ++ [t]) (Or.inr (by simp))

theorem mod_succ_of_eq_zero {bs i : Nat} (hbs : 0 < bs) (h : (i + 1) % bs = 0) :
    i % bs + 1 = bs := by
  have he : (i % bs + 1) % bs = (i + 1) % bs := Nat.mod_add_mod i bs 1
  have hlt : i % bs < bs := Nat.mod_lt _ hbs
  rcases Nat.lt_or_ge (i % bs + 1) bs with hc | hc
  · rw [Nat.mod_eq_of_lt hc] at he
    omega
  · omega

theorem mod_succ_of_ne_zero {bs i : Nat} (hbs : 0 < bs) (h : (i + 1) % bs ≠ 0) :
    (i + 1) % bs = i % bs + 1 := by
  have he : (i % bs + 1) % bs = (i + 1) % bs := Nat.mod_add_mod i bs 1
  have hlt : i % bs < bs := Nat.mod_lt _ hbs
  rcases Nat.lt_or_ge (i % bs + 1) bs with hc | hc
  · rw [Nat.mod_eq_of_lt hc] at he
    omega
  · have hc2 : i % bs + 1 = bs := by omega
    rw [hc2, Nat.mod_self] at he
    omega

theorem getBatchesLoop_mem_le (bs : Nat) (hbs : 0 < bs) : ∀ (ts : List Str) (i : Nat)
    (batch : List Str), batch.length = i % bs →
    ∀ b ∈ getBatchesLoop bs ts i batch, b.length ≤ bs
  | [], i, batch, hlen, b, hmem => by
    rw [getBatchesLoop] at hmem
    split at hmem
    · simp at hmem
    · rw [List.mem_singleton] at hmem
      subst hmem
      have : i % bs < bs := Nat.mod_lt _ hbs
      omega
  | t :: ts, i, batch, hlen, b, hmem => by
    rw [getBatchesLoop] at hmem
    split at hmem
    · rename_i hz
      rcases List.mem_cons.mp hmem with rfl | hmem'
      · have := mod_succ_of_eq_zero hbs (by simpa using hz)
        simp
        omega
      · have hz' : (i + 1) % bs = 0 := by simpa using hz
        exact getBatchesLoop_mem_le bs hbs ts (i + 1) [] (by simp [hz']) b hmem'
    · rename_i hz
      refine getBatchesLoop_mem_le bs hbs ts (i + 1) (batch ++ [t]) ?_ b hmem
      have := mod_succ_of_ne_zero hbs (by simpa using hz)
      simp
      omega

theorem getBatchesLoop_dropLast (bs : Nat) (hbs : 0 < bs) : ∀ (ts : List Str) (i : Nat)
    (batch : List Str), batch.length = i % bs →
    ∀ b ∈ (getBatchesLoop bs ts i batch).dropLast, b.length = bs
  | [], i, batch, _, b, hmem => by
    rw [getBatchesLoop] at hmem
    split at hmem <;> simp at hmem
  | t :: ts, i, batch, hlen, b, hmem => by
    rw [getBatchesLoop] at hmem
    split at hmem
    · rename_i hz
      rcases hrest : getBatchesLoop bs ts (i + 1) [] with _ | ⟨x, xs⟩
      · rw [hrest] at hmem
        simp at hmem
      · rw [hrest, List.dropLast_cons₂] at hmem
        rcases List.mem_cons.mp hmem with rfl | hmem'
        · have := mod_succ_of_eq_zero hbs (by simpa using hz)
          simp
          omega
        · have hz' : (i + 1) % bs = 0 := by simpa using hz
          refine getBatchesLoop_dropLast bs hbs ts (i + 1) [] (by simp [hz']) b ?_
          rw [hrest]
          exact hmem'
    · rename_i hz
      refine getBatchesLoop_dropLast bs hbs ts (i + 1) (batch ++ [t]) ?_ b hmem
      have := mod_succ_of_ne_zero hbs (by simpa using hz)
      simp
      omega

/-! Lemmas about the retry loop and the batch-translation loop. -/

/-- Against an always-failing capability, the retry loop performs exactly
`fuel` invocations with a 10-unit sleep between consecutive attempts (none
after the last), touches neither `answer` nor the progress counter, and ends
in the `return None` branch. -/
theorem runBatch_fail (tr : Tr) (L : Nat) (b : List Str)
    (htr : ∀ i b', tr i b' = none) : ∀ (fuel : Nat) (st : TState), 1 ≤ fuel →
    runBatch tr L b fuel st =
      ({ st with trace := st.trace ++ attemptTrace b fuel, ncalls := st.ncalls + fuel }, false)
  | 0, _, h => by omega
  | 1, st, _ => by
    rw [runBatch, htr st.ncalls b]
    simp [attemptTrace]
  | fuel + 2, st, _ => by
    rw [runBatch, htr st.ncalls b]
    simp only [Nat.add_eq, if_neg (Nat.succ_ne_zero fuel)]
    rw [runBatch_fail tr L b htr (fuel + 1) _ (by omega)]
    simp [attemptTrace, TState.mk.injEq]
    omega

/-- With the element-wise capability `pureTr f` and nonzero input length, one
pass of the retry loop succeeds at the first attempt. -/
theorem runBatch_pure (f : Str → Str) (L : Nat) (b : List Str) (hL : L ≠ 0)
    (fuel : Nat) (st : TState) (hf : 1 ≤ fuel) :
    runBatch (pureTr f) L b fuel st =
      ({ answer := st.answer ++ joinNL (b.map f)
         lenTr := st.lenTr + sumLens b + (b.length - 1)
         trace := st.trace ++
           [Ev.call b, Ev.progress ((st.lenTr + sumLens b + (b.length - 1)) * 100 / L)]
         ncalls := st.ncalls + 1 }, true) := by
  match fuel, hf with
  | fuel + 1, _ =>
    rw [runBatch]
    show (if L = 0 then _ else _) = _
    rw [if_neg hL]
    simp

/-- The retry loop only appends to the event trace. -/
theorem runBatch_trace_extend (tr : Tr) (L : Nat) (b : List Str) :
    ∀ (fuel : Nat) (st : TState), ∃ t, ((runBatch tr L b fuel st).1).trace = st.trace ++ t
  | 0, st => ⟨[], by simp [runBatch]⟩
  | fuel + 1, st => by
    rw [runBatch]
    rcases htr : tr st.ncalls b with _ | res
    · show ∃ t, ((if fuel = 0 then _ else _ : TState × Bool).1).trace = _
      rcases Nat.eq_zero_or_pos fuel with rfl | hf
      · exact ⟨[Ev.call b], by simp⟩
      · rw [if_neg (by omega)]
        obtain ⟨t, ht⟩ := runBatch_trace_extend tr L b fuel
          { st with trace := (st.trace ++ [Ev.call b]) ++ [Ev.sleep 10], ncalls := st.ncalls + 1 }
        exact ⟨[Ev.call b, Ev.sleep 10] ++ t, by simpa using ht⟩
    · show ∃ t, ((if L = 0 then _ else _ : TState × Bool).1).trace = _
      rcases Nat.eq_zero_or_pos L with rfl | hL
      · rw [if_pos rfl]
        show ∃ t, ((if fuel = 0 then _ else _ : TState × Bool).1).trace = _
        rcases Nat.eq_zero_or_pos fuel with rfl | hf
        · exact ⟨[Ev.call b], by simp⟩
        · rw [if_neg (by omega)]
          obtain ⟨t, ht⟩ := runBatch_trace_extend tr 0 b fuel
            { answer := st.answer ++ joinNL res, lenTr := st.lenTr + sumLens b + (b.length - 1),
              trace := (st.trace ++ [Ev.call b]) ++ [Ev.sleep 10], ncalls := st.ncalls + 1 }
          exact ⟨[Ev.call b, Ev.sleep 10] ++ t, by simpa using ht⟩
      · rw [if_neg (by omega)]
        exact ⟨[Ev.call b,
          Ev.progress ((st.lenTr + sumLens b + (b.length - 1)) * 100 / L)], by simp⟩

/-- Whenever the retry loop may attempt at all (`1 ≤ fuel`), its first event
is an invocation of the capability on the batch. -/
theorem runBatch_first_call (tr : Tr) (L : Nat) (b : List Str)
    (fuel : Nat) (st : TState) (hf : 1 ≤ fuel) :
    ∃ t, ((runBatch tr L b fuel st).1).trace = st.trace ++ (Ev.call b :: t) := by
  match fuel, hf with
  | fuel + 1, _ =>
    rw [runBatch]
    rcases htr : tr st.ncalls b with _ | res
    · show ∃ t, ((if fuel = 0 then _ else _ : TState × Bool).1).trace = _
      rcases Nat.eq_zero_or_pos fuel with rfl | hf
      · exact ⟨[], by simp⟩
      · rw [if_neg (by omega)]
        obtain ⟨t, ht⟩ := runBatch_trace_extend tr L b fuel
          { st with trace := (st.trace ++ [Ev.call b]) ++ [Ev.sleep 10], ncalls := st.ncalls + 1 }
        exact ⟨Ev.sleep 10 :: t, by simpa using ht⟩
    · show ∃ t, ((if L = 0 then _ else _ : TState × Bool).1).trace = _
      rcases Nat.eq_zero_or_pos L with rfl | hL
      · rw [if_pos rfl]
        show ∃ t, ((if fuel = 0 then _ else _ : TState × Bool).1).trace = _
        rcases Nat.eq_zero_or_pos fuel with rfl | hf
        · exact ⟨[], by simp⟩
        · rw [if_neg (by omega)]
          obtain ⟨t, ht⟩ := runBatch_trace_extend tr 0 b fuel
            { answer := st.answer ++ joinNL res, lenTr := st.lenTr + sumLens b + (b.length - 1),
              trace := (st.trace ++ [Ev.call b]) ++ [Ev.sleep 10], ncalls := st.ncalls + 1 }
          exact ⟨Ev.sleep 10 :: t, by simpa using ht⟩
      · rw [if_neg (by omega)]
        exact ⟨[Ev.progress ((st.lenTr + sumLens b + (b.length - 1)) * 100 / L)], by simp⟩

/-- With `max_retries = 0` the `while` loop never runs: every batch is
skipped unchanged. -/
theorem translateLoop_zero (tr : Tr) (L : Nat) : ∀ (B : List (List Str)) (st : TState),
    translateLoop tr 0 L B st = (some st.answer, st)
  | [], _ => rfl
  | _ :: B, st => by
    rw [translateLoop]
    show translateLoop tr 0 L B st = _
    exact translateLoop_zero tr L B st

/-- Success path of the batch loop: the answer accumulates the per-batch
newline-joins with nothing between batches. -/
theorem translateLoop_pure_answer (f : Str → Str) (maxR L : Nat) (hL : L ≠ 0)
    (hm : 1 ≤ maxR) : ∀ (B : List (List Str)) (st : TState),
    (translateLoop (pureTr f) maxR L B st).1 = some (st.answer ++ batchJoins f B)
  | [], st => by simp [translateLoop, batchJoins]
  | b :: B, st => by
    rw [translateLoop]
    rw [runBatch_pure f L b hL maxR st hm]
    show (translateLoop (pureTr f) maxR L B _).1 = _
    rw [translateLoop_pure_answer f maxR L hL hm B _]
    simp [batchJoins]

/-- Success path of the batch loop: the progress counter accumulates, per
batch, the batch's chunk lengths plus one newline per in-batch gap. -/
theorem translateLoop_pure_lenTr (f : Str → Str) (maxR L : Nat) (hL : L ≠ 0)
    (hm : 1 ≤ maxR) : ∀ (B : List (List Str)) (st : TState),
    ((translateLoop (pureTr f) maxR L B st).2).lenTr =
      st.lenTr + (B.map (fun b => sumLens b + (b.length - 1))).sum
  | [], st => by simp [translateLoop]
  | b :: B, st => by
    rw [translateLoop]
    rw [runBatch_pure f L b hL maxR st hm]
    show ((translateLoop (pureTr f) maxR L B _).2).lenTr = _
    rw [translateLoop_pure_lenTr f maxR L hL hm B _]
    simp
    omega

/-! Character-count bookkeeping (for claim C8). -/

theorem sumLens_append (a b : List Str) : sumLens (a ++ b) = sumLens a + sumLens b := by
  simp [sumLens]

theorem batch_count_sum : ∀ (B : List (List Str)), (∀ b ∈ B, b ≠ []) →
    (B.map (fun b => sumLens b + (b.length - 1))).sum + B.length =
      sumLens B.flatten + B.flatten.length
  | [], _ => by simp [sumLens]
  | b :: B, h => by
    have hb : 1 ≤ b.length := List.length_pos.mpr (h b (by simp))
    have ih := batch_count_sum B (fun x hx => h x (by simp [hx]))
    simp only [List.map_cons, List.sum_cons, List.flatten_cons, List.length_cons,
      sumLens_append, List.length_append]
    omega

theorem joinNL_length : ∀ C : List Str, C ≠ [] →
    (joinNL C).length + 1 = sumLens C + C.length
  | [], h => absurd rfl h
  | [c], _ => by simp [joinNL, sumLens]
  | c :: c' :: cs, _ => by
    have ih := joinNL_length (c' :: cs) (by simp)
    rw [joinNL_cons_cons]
    simp only [List.length_append, List.length_cons] at *
    simp only [sumLens, List.map_cons, List.sum_cons] at *
    omega

/-- Whatever the configured batch size, a single chunk makes a single
one-element batch. -/
theorem _get_batches_singleton (bs : Nat) (c : Str) : _get_batches bs [c] = [[c]] := by
  rw [_get_batches, getBatchesLoop]
  split <;> rfl

/-! A concrete two-chunk input: its first paragraph is one character, its
second is 4996 characters, so the splitter flushes exactly once and
produces the two chunks `"a"` and the long paragraph. -/

/-- The text `"a\n" ++ "a" * 4996`: 4998 characters, two paragraphs, two
chunks. -/
def twoChunkText : Str := 'a' :: '\n' :: List.replicate 4996 'a'

theorem twoChunkText_split :
    splitOn '\n' twoChunkText = [['a'], List.replicate 4996 'a'] := by
  have hrep : splitOnAux '\n' (List.replicate 4996 'a') [] = [List.replicate 4996 'a'] := by
    have h := splitOnAux_no_sep '\n' (List.replicate 4996 'a') []
      (by intro c hc; rw [List.eq_of_mem_replicate hc]; decide)
    rw [h, List.reverse_nil, List.nil_append]
  rw [twoChunkText, splitOn, splitOnAux, if_neg (by decide), splitOnAux, if_pos rfl, hrep]
  rfl

theorem twoChunkText_prepare :
    _prepare twoChunkText = [['a'], List.replicate 4996 'a'] := by
  rw [_prepare, twoChunkText_split, prepareLoop,
    if_neg (by simp), List.nil_append, prepareLoop,
    if_pos (by rw [List.length_replicate]; decide), prepareLoop]
  show [['a', '\n'].dropLast, (List.replicate 4996 'a' ++ ['\n']).dropLast] = _
  rw [List.dropLast_concat]
  rfl

theorem twoChunkText_length : twoChunkText.length = 4998 := by
  rw [twoChunkText, List.length_cons, List.length_cons, List.length_replicate]

theorem twoChunkText_not_digits : is_digits_and_punctuation twoChunkText = false := by
  have ha : inCharClass 'a' = false := by decide
  rw [is_digits_and_punctuation, twoChunkText, List.all_cons, ha, Bool.false_and,
    Bool.and_false]

theorem twoChunkText_run (f : Str → Str) :
    run (pureTr f) 2 1 twoChunkText =
      translateLoop (pureTr f) 2 4998 [[['a']], [List.replicate 4996 'a']] initState := by
  rw [run, if_neg (by rw [twoChunkText_not_digits]; exact Bool.false_ne_true), _translate,
    twoChunkText_prepare, twoChunkText_length]
  rfl

/-! Remaining small helpers used by the claim theorems. -/

theorem joinNL_singleton (s : Str) : joinNL [s] = s := rfl

theorem prepare_nil : _prepare [] = [[]] := rfl

theorem claimNB_sub (c : Char) (h : claimCharSetNB c = true) : inCharClass c = true := by
  rw [claimCharSetNB] at h
  rw [inCharClass]
  simp only [Bool.or_eq_true, List.contains_cons, List.contains_nil, Bool.or_false,
    beq_iff_eq] at h ⊢
  tauto

/-- On a single 4998-character paragraph the first flush fires while the
buffer is still empty, so the splitter emits a spurious empty first chunk. -/
theorem bigPar_prepare :
    _prepare (List.replicate 4998 'a') = [[], List.replicate 4998 'a'] := by
  have hsp : splitOn '\n' (List.replicate 4998 'a') = [List.replicate 4998 'a'] :=
    splitOn_no_sep '\n' _ (by intro c hc; rw [List.eq_of_mem_replicate hc]; decide)
  rw [_prepare, hsp, prepareLoop, if_pos (by rw [List.length_replicate]; decide), prepareLoop]
  show [List.dropLast [], (List.replicate 4998 'a' ++ ['\n']).dropLast] = _
  rw [List.dropLast_concat]
  rfl

/-! The claim theorems. -/

/-- C1 (amended): for every input text whose first paragraph is shorter than
4998 characters (so the first flush check cannot fire on the empty buffer),
joining the sequence of chunks produced by the splitter with a single "\n"
separator reproduces the original text exactly. -/
theorem c1_roundtrip (text : Str)
    (h : (splitOn '\n' text).headI.length + 2 < 5000) :
    joinNL (_prepare text) = text :=
  prepare_roundtrip text h

/-- C1 (counterexample): on the text of 4998 letters "a" — a single paragraph
of length 4998, no newline anywhere — the splitter emits a spurious empty
first chunk, so joining the chunks with "\n" yields the text with an extra
leading newline, not the original text. -/
theorem c1_cex :
    joinNL (_prepare (List.replicate 4998 'a')) ≠ List.replicate 4998 'a' := by
  rw [bigPar_prepare, joinNL_cons_cons, joinNL_singleton, List.nil_append]
  intro h
  have hl := congrArg List.length h
  rw [List.length_cons] at hl
  omega

/-- Witness for c1_roundtrip at the concrete text "a\nb". -/
theorem c1_roundtrip_witness :
    (splitOn '\n' (String.toList "a\nb")).headI.length + 2 < 5000 ∧
      joinNL (_prepare (String.toList "a\nb")) = String.toList "a\nb" :=
  ⟨by decide, c1_roundtrip (String.toList "a\nb") (by decide)⟩

/-- C2 (amended): for every nonempty text that does not match the
short-circuit and a Translate capability that succeeds and translates each
submitted batch element-wise in place, a run with at least one allowed
attempt succeeds and returns, for each batch, its translated chunks joined
with single newlines — but consecutive batches are concatenated with NO
separator between them (the claim's newline between chunks of different
batches is not inserted). -/
theorem c2_translated_output (f : Str → Str) (maxR bs : Nat) (text : Str)
    (hm : 1 ≤ maxR) (htext : text ≠ [])
    (hsc : is_digits_and_punctuation text = false) :
    (run (pureTr f) maxR bs text).1 =
      some (batchJoins f (_get_batches bs (_prepare text))) := by
  have hL : text.length ≠ 0 := fun h => htext (List.length_eq_zero.mp h)
  rw [run, if_neg (by rw [hsc]; exact Bool.false_ne_true), _translate,
    translateLoop_pure_answer f maxR text.length hL hm]
  rw [show initState.answer = ([] : Str) from rfl, List.nil_append]

/-- C2 (counterexample): with the identity translation on the two-chunk text
(two batches at batch size 1), run returns the two chunks concatenated with
no newline between the batches, which differs from the original text — so
the claimed "single newline separator between every pair of consecutive
chunks, including chunks in different batches" fails. -/
theorem c2_cex :
    (run (pureTr (fun s => s)) 2 1 twoChunkText).1 =
        some ('a' :: List.replicate 4996 'a') ∧
      (run (pureTr (fun s => s)) 2 1 twoChunkText).1 ≠ some twoChunkText := by
  have h1 : (run (pureTr (fun s => s)) 2 1 twoChunkText).1 =
      some ('a' :: List.replicate 4996 'a') := by
    rw [twoChunkText_run,
      translateLoop_pure_answer (fun s => s) 2 4998 (by omega) (by omega)]
    simp only [batchJoins, List.map_cons, List.map_nil, List.flatten_cons,
      List.flatten_nil, List.append_nil, joinNL_singleton, initState, List.nil_append]
    rfl
  refine ⟨h1, ?_⟩
  rw [h1, twoChunkText]
  intro h
  have hl := congrArg (fun o : Option Str => (o.getD []).length) h
  simp only [Option.getD_some, List.length_cons, List.length_replicate] at hl
  omega

/-- Witness for c2_translated_output at the concrete text "a\nb" and the
identity translation. -/
theorem c2_translated_output_witness :
    (1 ≤ 2 ∧ String.toList "a\nb" ≠ [] ∧
      is_digits_and_punctuation (String.toList "a\nb") = false) ∧
    (run (pureTr (fun s => s)) 2 5 (String.toList "a\nb")).1 =
      some (batchJoins (fun s => s) (_get_batches 5 (_prepare (String.toList "a\nb")))) :=
  ⟨⟨by omega, by decide, by decide⟩,
    c2_translated_output (fun s => s) 2 5 (String.toList "a\nb")
      (by omega) (by decide) (by decide)⟩

/-- C3 (amended): for every nonempty text all of whose characters are digits,
whitespace, or the fixed punctuation set . , ; : ! ? - ( ) [ ] { } ' "
WITHOUT the backtick, run returns the input unchanged with an empty effect
trace, i.e. zero calls to the Translate capability. -/
theorem c3_shortcircuit (tr : Tr) (maxR bs : Nat) (text : Str)
    (hne : text ≠ []) (hall : text.all claimCharSetNB = true) :
    run tr maxR bs text = (some text, initState) := by
  have hdig : is_digits_and_punctuation text = true := by
    rw [is_digits_and_punctuation]
    have h1 : text.isEmpty = false := by
      cases text with
      | nil => exact absurd rfl hne
      | cons a l => rfl
    have h2 : text.all inCharClass = true := by
      rw [List.all_eq_true] at hall ⊢
      exact fun x hx => claimNB_sub x (hall x hx)
    rw [h1, h2]
    rfl
  rw [run, if_pos hdig]

/-- C3 (counterexample): the one-character text consisting of a backtick lies
in the claim's character set (backtick included), yet the code's regex class
contains no backtick, so run does invoke the Translate capability on it
instead of returning it with zero calls. -/
theorem c3_cex :
    ([Char.ofNat 96] : Str).all claimCharSet = true ∧
      ((run (pureTr (fun s => s)) 2 5 [Char.ofNat 96]).2).ncalls ≠ 0 := by
  decide

/-- Witness for c3_shortcircuit at the concrete text "123, 456!". -/
theorem c3_shortcircuit_witness :
    (String.toList "123, 456!" ≠ [] ∧
      (String.toList "123, 456!").all claimCharSetNB = true) ∧
    run (pureTr (fun s => s)) 2 5 (String.toList "123, 456!") =
      (some (String.toList "123, 456!"), initState) :=
  ⟨⟨by decide, by decide⟩,
    c3_shortcircuit (pureTr (fun s => s)) 2 5 (String.toList "123, 456!")
      (by decide) (by decide)⟩

/-- C4: given max_retries ≥ 1, a Translate capability that always fails, and
a text that does not match the short-circuit, run invokes the capability
exactly max_retries times, all on the first batch, with the fixed 10-unit
wait between consecutive attempts and none after the last, accumulates no
output and no progress, and returns the failure signal. -/
theorem c4_retry_exhaustion (tr : Tr) (maxR bs : Nat) (text : Str)
    (htr : ∀ i b, tr i b = none) (hm : 1 ≤ maxR)
    (hsc : is_digits_and_punctuation text = false) :
    run tr maxR bs text =
      (none, { answer := [], lenTr := 0,
               trace := attemptTrace ((_get_batches bs (_prepare text)).headI) maxR,
               ncalls := maxR }) := by
  obtain ⟨b, rest, hB⟩ := List.exists_cons_of_ne_nil
    (getBatchesLoop_ne_nil bs (_prepare text) 0 [] (Or.inl (_prepare_ne_nil text)))
  rw [run, if_neg (by rw [hsc]; exact Bool.false_ne_true), _translate, _get_batches, hB,
    translateLoop, runBatch_fail tr text.length b htr maxR initState hm]
  simp [initState, List.headI]

/-- Witness for c4_retry_exhaustion at the concrete text "ab" with the
always-failing capability and max_retries = 2. -/
theorem c4_retry_exhaustion_witness :
    ((∀ (i : Nat) (b : List Str),
        (fun (_ : Nat) (_ : List Str) => (none : Option (List Str))) i b = none) ∧ 1 ≤ 2 ∧
      is_digits_and_punctuation (String.toList "ab") = false) ∧
    run (fun _ _ => none) 2 5 (String.toList "ab") =
      (none, { answer := [], lenTr := 0,
               trace := attemptTrace ((_get_batches 5 (_prepare (String.toList "ab"))).headI) 2,
               ncalls := 2 }) :=
  ⟨⟨fun _ _ => rfl, by omega, by decide⟩,
    c4_retry_exhaustion (fun _ _ => none) 2 5 (String.toList "ab")
      (fun _ _ => rfl) (by omega) (by decide)⟩

/-- C5: if the retry loop of some batch ends in its give-up branch, the batch
loop returns the failure signal none at once — no partial output is returned
no matter what successfully-translated output the incoming state already
holds — and the remaining batches are never inspected (any two continuations
give the same result, so no later batch is ever attempted); the loop is a
total function, so no capability failure escapes it as an exception. -/
theorem c5_failfast (tr : Tr) (maxR L : Nat) (b : List Str)
    (rest rest2 : List (List Str)) (st : TState)
    (h : (runBatch tr L b maxR st).2 = false) :
    translateLoop tr maxR L (b :: rest) st = (none, (runBatch tr L b maxR st).1) ∧
      translateLoop tr maxR L (b :: rest) st = translateLoop tr maxR L (b :: rest2) st := by
  constructor
  · rw [translateLoop]
    simp [h]
  · rw [translateLoop, translateLoop]
    simp [h]

/-- Witness for c5_failfast: a failing first batch with two different
continuations. -/
theorem c5_failfast_witness :
    (runBatch (fun _ _ => none) 0 [['a']] 1 initState).2 = false ∧
      (translateLoop (fun _ _ => none) 1 0 [[['a']], [['b']]] initState =
          (none, (runBatch (fun _ _ => none) 0 [['a']] 1 initState).1) ∧
        translateLoop (fun _ _ => none) 1 0 [[['a']], [['b']]] initState =
          translateLoop (fun _ _ => none) 1 0 [[['a']], [['c']]] initState) :=
  ⟨by decide, c5_failfast (fun _ _ => none) 1 0 [['a']] [[['b']]] [[['c']]] initState
    (by decide)⟩

/-- C6: every chunk produced by the splitter either has at most 5000
characters or is a single whole input paragraph (the documented
oversized-paragraph exception), and every chunk is the newline-join of a
contiguous run of whole input paragraphs — a chunk boundary only ever sits
at a "\n" separator, never inside a paragraph. -/
theorem c6_chunk_bound (text : Str) (chunk : Str) (h : chunk ∈ _prepare text) :
    (chunk.length ≤ 5000 ∨ chunk ∈ splitOn '\n' text) ∧
      ∃ r, contiguousIn r (splitOn '\n' text) ∧ chunk = joinNL r := by
  have h' : chunk ∈ prepareLoop (splitOn '\n' text) (paraCat []) := h
  have := prepareLoop_chunks (splitOn '\n' text) [] chunk
    (Or.inl (by rw [paraCat_nil]; simp)) h'
  simpa using this

/-- Witness for c6_chunk_bound at the concrete text "a\nb" and its single
chunk. -/
theorem c6_chunk_bound_witness :
    String.toList "a\nb" ∈ _prepare (String.toList "a\nb") ∧
      ((String.toList "a\nb").length ≤ 5000 ∨
          String.toList "a\nb" ∈ splitOn '\n' (String.toList "a\nb")) ∧
        ∃ r, contiguousIn r (splitOn '\n' (String.toList "a\nb")) ∧
          String.toList "a\nb" = joinNL r :=
  ⟨by decide, c6_chunk_bound (String.toList "a\nb") (String.toList "a\nb") (by decide)⟩

/-- C7: with batch_size ≥ 1, every batch is nonempty with at most batch_size
chunks, every batch except possibly the last has exactly batch_size chunks,
concatenating the batches in order restores the input chunk sequence exactly
(no chunk dropped, duplicated or reordered), and there is no batch at all
exactly when the input sequence is empty. -/
theorem c7_batching (bs : Nat) (l : List Str) (hbs : 1 ≤ bs) :
    (∀ b ∈ _get_batches bs l, b ≠ [] ∧ b.length ≤ bs) ∧
      (∀ b ∈ (_get_batches bs l).dropLast, b.length = bs) ∧
      (_get_batches bs l).flatten = l ∧
      (_get_batches bs l = [] ↔ l = []) := by
  refine ⟨fun b hb => ⟨getBatchesLoop_mem_ne_nil bs l 0 [] b hb,
      getBatchesLoop_mem_le bs hbs l 0 [] (by simp) b hb⟩,
    fun b hb => getBatchesLoop_dropLast bs hbs l 0 [] (by simp) b hb,
    by simpa using getBatchesLoop_flatten bs l 0 [], ?_, ?_⟩
  · intro hB
    by_contra hl
    exact getBatchesLoop_ne_nil bs l 0 [] (Or.inl hl) hB
  · rintro rfl
    rfl

/-- Witness for c7_batching at batch size 2 on three chunks. -/
theorem c7_batching_witness :
    1 ≤ 2 ∧
      ((∀ b ∈ _get_batches 2 [['a'], ['b'], ['c']], b ≠ [] ∧ b.length ≤ 2) ∧
        (∀ b ∈ (_get_batches 2 [['a'], ['b'], ['c']]).dropLast, b.length = 2) ∧
        (_get_batches 2 [['a'], ['b'], ['c']]).flatten = [['a'], ['b'], ['c']] ∧
        (_get_batches 2 [['a'], ['b'], ['c']] = [] ↔ ([['a'], ['b'], ['c']] : List Str) = [])) :=
  ⟨by omega, c7_batching 2 [['a'], ['b'], ['c']] (by omega)⟩

/-- C8 (amended): for a successful element-wise translation of a nonempty
non-short-circuit text whose first paragraph is below the flush threshold,
the final cumulative translated character count equals the total input
character count MINUS one newline per gap between batches (the in-batch
separators are counted, the between-batch separators are not): it reaches
the full input character count — a final reported percentage of 100 — only
when all chunks fall into a single batch. -/
theorem c8_progress_count (f : Str → Str) (maxR bs : Nat) (text : Str)
    (hm : 1 ≤ maxR) (htext : text ≠ [])
    (hsc : is_digits_and_punctuation text = false)
    (hhead : (splitOn '\n' text).headI.length + 2 < 5000) :
    ((run (pureTr f) maxR bs text).2).lenTr +
        ((_get_batches bs (_prepare text)).length - 1) = text.length := by
  have hL : text.length ≠ 0 := fun h => htext (List.length_eq_zero.mp h)
  rw [run, if_neg (by rw [hsc]; exact Bool.false_ne_true), _translate,
    translateLoop_pure_lenTr f maxR text.length hL hm]
  have hflat : (_get_batches bs (_prepare text)).flatten = _prepare text := by
    simpa using getBatchesLoop_flatten bs (_prepare text) 0 []
  have hne : ∀ b ∈ _get_batches bs (_prepare text), b ≠ [] :=
    fun b hb => getBatchesLoop_mem_ne_nil bs (_prepare text) 0 [] b hb
  have hsum := batch_count_sum (_get_batches bs (_prepare text)) hne
  rw [hflat] at hsum
  have hBne : _get_batches bs (_prepare text) ≠ [] :=
    getBatchesLoop_ne_nil bs (_prepare text) 0 [] (Or.inl (_prepare_ne_nil text))
  have hB1 : 1 ≤ (_get_batches bs (_prepare text)).length := List.length_pos.mpr hBne
  have hjl := joinNL_length (_prepare text) (_prepare_ne_nil text)
  rw [prepare_roundtrip text hhead] at hjl
  rw [show initState.lenTr = 0 from rfl]
  omega

/-- C8 (counterexample): on the two-chunk text (two batches at batch size 1)
with identity translation, the final cumulative count is 4997 while the text
has 4998 characters: the count does not reach the total input character
count after the final batch. -/
theorem c8_cex :
    ((run (pureTr (fun s => s)) 2 1 twoChunkText).2).lenTr ≠ twoChunkText.length := by
  rw [twoChunkText_run,
    translateLoop_pure_lenTr (fun s => s) 2 4998 (by omega) (by omega),
    twoChunkText_length]
  simp only [List.map_cons, List.map_nil, List.sum_cons, List.sum_nil, sumLens,
    List.length_cons, List.length_nil, List.length_replicate, initState]
  omega

/-- Witness for c8_progress_count at the concrete text "a\nb" (one batch, so
the count reaches the full 3 characters). -/
theorem c8_progress_count_witness :
    (1 ≤ 2 ∧ String.toList "a\nb" ≠ [] ∧
      is_digits_and_punctuation (String.toList "a\nb") = false ∧
      (splitOn '\n' (String.toList "a\nb")).headI.length + 2 < 5000) ∧
    ((run (pureTr (fun s => s)) 2 5 (String.toList "a\nb")).2).lenTr +
        ((_get_batches 5 (_prepare (String.toList "a\nb"))).length - 1) =
      (String.toList "a\nb").length :=
  ⟨⟨by omega, by decide, by decide, by decide⟩,
    c8_progress_count (fun s => s) 2 5 (String.toList "a\nb")
      (by omega) (by decide) (by decide) (by decide)⟩

/-- C9: the empty text fails the digit/punctuation check (the regex needs at
least one character), the splitter turns it into exactly one chunk — the
empty string — and run on the empty text therefore reaches the Translate
capability: its first observable event is an invocation on the one-element
batch containing the empty string, rather than returning the input via the
short-circuit. -/
theorem c9_empty_text (tr : Tr) (maxR bs : Nat) (hm : 1 ≤ maxR) :
    is_digits_and_punctuation [] = false ∧ _prepare [] = [[]] ∧
      ∃ t, ((run tr maxR bs []).2).trace = Ev.call [[]] :: t := by
  refine ⟨rfl, rfl, ?_⟩
  have hrun : run tr maxR bs [] = translateLoop tr maxR 0 [[[]]] initState := by
    rw [run, if_neg (by decide), _translate, prepare_nil, _get_batches_singleton]
    rfl
  have hfin : (translateLoop tr maxR 0 [[[]]] initState).2 =
      (runBatch tr 0 [[]] maxR initState).1 := by
    rw [translateLoop]
    cases hr : (runBatch tr 0 [[]] maxR initState).2 <;> simp [hr, translateLoop]
  obtain ⟨t, ht⟩ := runBatch_first_call tr 0 [[]] maxR initState hm
  rw [hrun, hfin, ht]
  exact ⟨t, by rw [show initState.trace = [] from rfl, List.nil_append]⟩

/-- Witness for c9_empty_text with the always-failing capability and the
default configuration. -/
theorem c9_empty_text_witness :
    1 ≤ 2 ∧ (is_digits_and_punctuation [] = false ∧ _prepare [] = [[]] ∧
      ∃ t, ((run (fun _ _ => none) 2 5 []).2).trace = Ev.call [[]] :: t) :=
  ⟨by omega, c9_empty_text (fun _ _ => none) 2 5 (by omega)⟩

/-- C10: with max_retries = 0 the while loop never runs, so for every text
that reaches _translate, run performs zero capability invocations (empty
trace) and returns the empty string as a success value, not the failure
signal. -/
theorem c10_zero_retries (tr : Tr) (bs : Nat) (text : Str)
    (hsc : is_digits_and_punctuation text = false) :
    run tr 0 bs text = (some [], initState) := by
  rw [run, if_neg (by rw [hsc]; exact Bool.false_ne_true), _translate, translateLoop_zero]
  rfl

/-- Witness for c10_zero_retries at the concrete text "ab". -/
theorem c10_zero_retries_witness :
    is_digits_and_punctuation (String.toList "ab") = false ∧
      run (fun _ _ => none) 0 5 (String.toList "ab") = (some [], initState) :=
  ⟨by decide, c10_zero_retries (fun _ _ => none) 5 (String.toList "ab") (by decide)⟩

end EngToRu
